import Mathlib

/-!
Shallow embedding of the EDA game tester (src/main.rs, src/errors.rs).

The harness runs one child process per seed in an inclusive seed range,
parses per-player scores from each child's diagnostic output, and folds
the per-run outcomes into aggregate `TestResults` with a map/reduce
whose combine sums per-player totals and concatenates failed seeds.

Machine integers (`u32`) are modelled as `Nat`; where the source relies
on wrap-around or checked arithmetic this is made explicit with
`% u32size` / bound checks against `u32Max`.
-/

/-- Number of `u32` values; `u32` wrap-around arithmetic is `% u32size`. -/
def u32size : Nat := 4294967296

/-- Largest `u32` value, the bound used by `u32::checked_add`. -/
def u32Max : Nat := 4294967295

/-- Wrapping `u32` addition, the release-mode semantics of `+=` on `u32`
fields in the reduce closure (main.rs lines 213-216). -/
def add32 (a b : Nat) : Nat := (a + b) % u32size

/-- Model of `u32::checked_add` (main.rs line 134): `None` when the exact
sum exceeds `u32::MAX`. -/
def checkedAddU32 (a b : Nat) : Option Nat :=
  if a + b ≤ u32Max then some (a + b) else none

/-- Seed-range construction from main.rs lines 130-135: `min_seed` is
`config.seed`, `max_seed` is `seed.checked_add(instances - 1)`, and the
whole run aborts with `AppError::SeedRangeOutOfBounds` (modelled `none`)
when the checked addition overflows. -/
def seedRange (seed instances : Nat) : Option (Nat × Nat) :=
  match checkedAddU32 seed (instances - 1) with
  | none => none
  | some mx => some (seed, mx)

/-- `ExecutionResults` from main.rs lines 106-109: one run either exits
cleanly with four `u32` scores or crashes, remembering its seed. -/
inductive ExecutionResults where
  | Ok (points : Fin 4 → Nat)
  | Crash (seed : Nat)
deriving DecidableEq

/-- Whether an outcome is the `Crash` variant. -/
def isCrash : ExecutionResults → Bool
  | .Ok _ => false
  | .Crash _ => true

/-- `PlayerResults` from main.rs lines 117-121. -/
structure PlayerResults where
  total_points : Nat
  total_wins : Nat
deriving DecidableEq

/-- `TestResults` from main.rs lines 123-127; `failed_seeds` is a `Vec<u32>`. -/
structure TestResults where
  player_results : Fin 4 → PlayerResults
  failed_seeds : List Nat

/-- `TestResults::default()`: all-zero totals, no failed seeds
(the rayon reduce identity, main.rs line 207). -/
def emptyResults : TestResults :=
  { player_results := fun _ => { total_points := 0, total_wins := 0 }
    failed_seeds := [] }

/-- `points.iter().max().unwrap()` on the four-element score array
(main.rs line 197). -/
def maxP (points : Fin 4 → Nat) : Nat :=
  Nat.max (Nat.max (Nat.max (points 0) (points 1)) (points 2)) (points 3)

/-- The map closure of main.rs lines 191-205: one outcome becomes a
singleton `TestResults` fragment.  A clean run stores each player's score
and a win flag (1 when the score ties the maximum), a crash stores only
its seed in `failed_seeds`. -/
def mapStage : ExecutionResults → TestResults
  | .Ok points =>
    { player_results := fun i =>
        { total_points := points i
          total_wins := if points i = maxP points then 1 else 0 }
      failed_seeds := [] }
  | .Crash seed =>
    { player_results := fun _ => { total_points := 0, total_wins := 0 }
      failed_seeds := [seed] }

/-- The reduce closure of main.rs lines 208-219: concatenate
`failed_seeds` and sum both per-player counters (wrapping `u32` `+=`). -/
def combine (a b : TestResults) : TestResults :=
  { player_results := fun i =>
      { total_points := add32 (a.player_results i).total_points (b.player_results i).total_points
        total_wins := add32 (a.player_results i).total_wins (b.player_results i).total_wins }
    failed_seeds := a.failed_seeds ++ b.failed_seeds }

/-- Sequential reduction of a list of outcomes: map each outcome to its
fragment, then fold `combine` from the identity. -/
def reduceList (l : List ExecutionResults) : TestResults :=
  (l.map mapStage).foldl combine emptyResults

/-- Grouped reduction: reduce each group, then combine the group results
from the identity — one shape of rayon's arbitrary reduce tree. -/
def groupReduce (gs : List (List ExecutionResults)) : TestResults :=
  (gs.map reduceList).foldl combine emptyResults

/-- The equality the spec demands of any two aggregation orders:
field-wise equality of both counters for every player, and set equality
of `failed_seeds`. -/
def TRequiv (a b : TestResults) : Prop :=
  (∀ i, (a.player_results i).total_points = (b.player_results i).total_points ∧
      (a.player_results i).total_wins = (b.player_results i).total_wins) ∧
  (∀ s, s ∈ a.failed_seeds ↔ s ∈ b.failed_seeds)

/-- `PlayerName::try_from` (main.rs lines 60-75), on UTF-8 bytes: reject
names longer than 12 bytes, otherwise copy the bytes into a zeroed
12-byte buffer. -/
def playerNameTryFrom (value : List Nat) : Option (List Nat) :=
  if value.length > 12 then none
  else some (value ++ List.replicate (12 - value.length) 0)

/-- Drop every trailing zero byte of a buffer. -/
def trimTrailingZeros (l : List Nat) : List Nat :=
  (l.reverse.dropWhile (fun b => b == 0)).reverse

/-- `PlayerName::as_string` (main.rs lines 52-58) at the byte level:
`String::from_utf8_lossy` followed by `trim_end_matches` of the NUL
character.  On buffers that are valid UTF-8 the lossy decoding is the
identity on bytes, and trimming NUL characters is dropping trailing zero
bytes, so the byte-level model is exact there. -/
def playerNameAsString (buf : List Nat) : List Nat :=
  trimTrailingZeros buf

-- ### Generic fold lemmas for the reduce closure

theorem add32_lt (a b : Nat) : add32 a b < u32size := by
  have h : 0 < u32size := by decide
  exact Nat.mod_lt _ h

theorem acc_foldl_mod (h : TestResults → Nat)
    (hc : ∀ a b, h (combine a b) = add32 (h a) (h b)) :
    ∀ (l : List TestResults) (z : TestResults),
      h (l.foldl combine z) % u32size = (h z + (l.map h).sum) % u32size := by
  intro l
  induction l with
  | nil => intro z; simp
  | cons x xs ih =>
    intro z
    have hx := ih (combine z x)
    calc h ((x :: xs).foldl combine z) % u32size
        = h (xs.foldl combine (combine z x)) % u32size := rfl
      _ = (h (combine z x) + (xs.map h).sum) % u32size := hx
      _ = (add32 (h z) (h x) + (xs.map h).sum) % u32size := by rw [hc]
      _ = ((h z + h x) % u32size + (xs.map h).sum) % u32size := rfl
      _ = ((h z + h x) + (xs.map h).sum) % u32size := Nat.mod_add_mod _ _ _
      _ = (h z + ((x :: xs).map h).sum) % u32size := by
            simp [Nat.add_assoc]

theorem acc_foldl_lt (h : TestResults → Nat)
    (hc : ∀ a b, h (combine a b) = add32 (h a) (h b)) :
    ∀ (l : List TestResults) (z : TestResults), h z < u32size →
      h (l.foldl combine z) < u32size := by
  intro l
  induction l with
  | nil => intro z hz; exact hz
  | cons x xs ih =>
    intro z _
    have hcz : h (combine z x) < u32size := by
      rw [hc]; exact add32_lt _ _
    exact ih (combine z x) hcz

theorem sum_mod_congr {α : Type} (l : List α) (f g : α → Nat)
    (hfg : ∀ a ∈ l, f a % u32size = g a % u32size) :
    (l.map f).sum % u32size = (l.map g).sum % u32size := by
  induction l with
  | nil => rfl
  | cons x xs ih =>
    have hx : f x % u32size = g x % u32size := hfg x (by simp)
    have hxs : (xs.map f).sum % u32size = (xs.map g).sum % u32size :=
      ih (fun a ha => hfg a (by simp [ha]))
    calc ((x :: xs).map f).sum % u32size
        = (f x + (xs.map f).sum) % u32size := by simp
      _ = (f x % u32size + (xs.map f).sum % u32size) % u32size := by
            rw [Nat.add_mod]
      _ = (g x % u32size + (xs.map g).sum % u32size) % u32size := by
            rw [hx, hxs]
      _ = (g x + (xs.map g).sum) % u32size := by rw [← Nat.add_mod]
      _ = ((x :: xs).map g).sum % u32size := by simp

theorem acc_emptyResults (h : TestResults → Nat)
    (h0 : h emptyResults = 0) : h emptyResults < u32size := by
  rw [h0]; decide

theorem acc_group_eq (h : TestResults → Nat)
    (hc : ∀ a b, h (combine a b) = add32 (h a) (h b))
    (h0 : h emptyResults = 0)
    (gs : List (List ExecutionResults)) (l : List ExecutionResults)
    (hperm : gs.flatten.Perm l) :
    h (groupReduce gs) = h (reduceList l) := by
  have hq : ∀ (m : List ExecutionResults),
      h (reduceList m) % u32size =
        (m.map (fun o => h (mapStage o))).sum % u32size := by
    intro m
    have := acc_foldl_mod h hc (m.map mapStage) emptyResults
    rw [h0, Nat.zero_add, List.map_map] at this
    exact this
  have hGlt : h (groupReduce gs) < u32size :=
    acc_foldl_lt h hc _ _ (acc_emptyResults h h0)
  have hRlt : h (reduceList l) < u32size :=
    acc_foldl_lt h hc _ _ (acc_emptyResults h h0)
  have hG : h (groupReduce gs) % u32size =
      (gs.flatten.map (fun o => h (mapStage o))).sum % u32size := by
    have h1 := acc_foldl_mod h hc (gs.map reduceList) emptyResults
    rw [h0, Nat.zero_add, List.map_map] at h1
    have h2 : (gs.map (fun g => h (reduceList g))).sum % u32size =
        (gs.map (fun g => ((g.map (fun o => h (mapStage o))).sum))).sum % u32size :=
      sum_mod_congr gs _ _ (fun g _ => hq g)
    have h3 : (gs.map (fun g => ((g.map (fun o => h (mapStage o))).sum))).sum =
        (gs.flatten.map (fun o => h (mapStage o))).sum := by
      rw [List.map_flatten, List.sum_flatten, List.map_map]
      rfl
    calc h (groupReduce gs) % u32size
        = (gs.map (fun g => h (reduceList g))).sum % u32size := by
          simpa [Function.comp] using h1
      _ = (gs.map (fun g => ((g.map (fun o => h (mapStage o))).sum))).sum % u32size := h2
      _ = (gs.flatten.map (fun o => h (mapStage o))).sum % u32size := by rw [h3]
  have hsum : (gs.flatten.map (fun o => h (mapStage o))).sum =
      (l.map (fun o => h (mapStage o))).sum :=
    (hperm.map (fun o => h (mapStage o))).sum_eq
  have : h (groupReduce gs) % u32size = h (reduceList l) % u32size := by
    rw [hG, hsum, ← hq l]
  calc h (groupReduce gs)
      = h (groupReduce gs) % u32size := (Nat.mod_eq_of_lt hGlt).symm
    _ = h (reduceList l) % u32size := this
    _ = h (reduceList l) := Nat.mod_eq_of_lt hRlt

-- ### failed_seeds fold lemmas

theorem fs_foldl : ∀ (l : List TestResults) (z : TestResults),
    (l.foldl combine z).failed_seeds =
      z.failed_seeds ++ (l.map (fun t => t.failed_seeds)).flatten := by
  intro l
  induction l with
  | nil => intro z; simp
  | cons x xs ih =>
    intro z
    calc ((x :: xs).foldl combine z).failed_seeds
        = (xs.foldl combine (combine z x)).failed_seeds := rfl
      _ = (combine z x).failed_seeds ++ (xs.map (fun t => t.failed_seeds)).flatten :=
          ih (combine z x)
      _ = z.failed_seeds ++ (((x :: xs).map (fun t => t.failed_seeds)).flatten) := by
          simp [combine]

theorem fs_reduceList (l : List ExecutionResults) :
    (reduceList l).failed_seeds =
      (l.map (fun o => (mapStage o).failed_seeds)).flatten := by
  rw [reduceList, fs_foldl, List.map_map]
  simp [emptyResults]
  rfl

theorem fs_groupReduce (gs : List (List ExecutionResults)) :
    (groupReduce gs).failed_seeds =
      (gs.flatten.map (fun o => (mapStage o).failed_seeds)).flatten := by
  rw [groupReduce, fs_foldl, List.map_map]
  simp only [emptyResults, List.nil_append]
  rw [List.map_flatten, List.flatten_flatten, List.map_map]
  apply congrArg List.flatten
  apply List.map_congr_left
  intro g _
  simpa [Function.comp] using fs_reduceList g

-- ### Per-outcome failed_seeds facts

theorem fs_mapStage_count_ok (s : Nat) (p : Fin 4 → Nat) :
    List.count s (mapStage (.Ok p)).failed_seeds = 0 := by
  simp [mapStage]

theorem fs_mapStage_count_crash (s t : Nat) :
    List.count s (mapStage (.Crash t)).failed_seeds = if t = s then 1 else 0 := by
  by_cases h : t = s <;> simp [mapStage, List.count_cons, h]

theorem fs_mapStage_length (o : ExecutionResults) :
    (mapStage o).failed_seeds.length = if isCrash o = true then 1 else 0 := by
  cases o <;> simp [mapStage, isCrash]

theorem count_seed_sum (s : Nat) :
    ∀ (seeds : List Nat) (f : Nat → ExecutionResults),
      seeds.Nodup →
      (∀ x ∈ seeds, ∀ t, f x = .Crash t → t = x) →
      (seeds.map (fun x => List.count s (mapStage (f x)).failed_seeds)).sum =
        if s ∈ seeds ∧ isCrash (f s) = true then 1 else 0 := by
  intro seeds
  induction seeds with
  | nil => intro f _ _; simp
  | cons x xs ih =>
    intro f hnd hcons
    obtain ⟨hxnotin, hnd2⟩ := List.nodup_cons.mp hnd
    have hih := ih f hnd2 (fun y hy t ht => hcons y (List.mem_cons_of_mem _ hy) t ht)
    simp only [List.map_cons, List.sum_cons, hih]
    by_cases hsx : s = x
    · subst hsx
      cases hfx : f s with
      | Ok p =>
        simp [fs_mapStage_count_ok, isCrash, hxnotin]
      | Crash t =>
        have ht : t = s := hcons s (List.mem_cons_self _ _) t hfx
        rw [ht]
        simp [fs_mapStage_count_crash, isCrash, hxnotin]
    · have hmem : (s ∈ x :: xs ∧ isCrash (f s) = true) ↔
          (s ∈ xs ∧ isCrash (f s) = true) := by
        constructor
        · rintro ⟨h1, h2⟩
          rcases List.mem_cons.mp h1 with h3 | h3
          · exact absurd h3 hsx
          · exact ⟨h3, h2⟩
        · rintro ⟨h1, h2⟩
          exact ⟨List.mem_cons_of_mem _ h1, h2⟩
      cases hfx : f x with
      | Ok p =>
        simp only [fs_mapStage_count_ok, Nat.zero_add]
        simp [hsx]
      | Crash t =>
        have ht : t = x := hcons x (List.mem_cons_self _ _) t hfx
        rw [ht]
        have hxs : ¬ x = s := fun hh => hsx hh.symm
        simp only [fs_mapStage_count_crash, if_neg hxs, Nat.zero_add]
        simp [hsx]

theorem count_fs_groupReduce (s : Nat) (gs : List (List ExecutionResults)) :
    List.count s (groupReduce gs).failed_seeds =
      (gs.flatten.map (fun o => List.count s (mapStage o).failed_seeds)).sum := by
  rw [fs_groupReduce, List.count_flatten, List.map_map]
  rfl

theorem length_fs_groupReduce (gs : List (List ExecutionResults)) :
    (groupReduce gs).failed_seeds.length =
      (gs.flatten.map (fun o => (mapStage o).failed_seeds.length)).sum := by
  rw [fs_groupReduce, List.length_flatten, List.map_map]
  rfl

theorem sum_ite_bound {α : Type} (l : List α) (p : α → Bool) :
    (l.map (fun x => if p x = true then 1 else 0)).sum ≤ l.length ∧
      (l.length ≤ (l.map (fun x => if p x = true then 1 else 0)).sum ↔
        ∀ x ∈ l, p x = true) := by
  induction l with
  | nil => simp
  | cons x xs ih =>
    obtain ⟨ih1, ih2⟩ := ih
    by_cases hx : p x = true
    · constructor
      · simp only [List.map_cons, List.sum_cons, if_pos hx, List.length_cons]
        omega
      · simp only [List.map_cons, List.sum_cons, if_pos hx, List.length_cons]
        constructor
        · intro h y hy
          rcases List.mem_cons.mp hy with h1 | h1
          · subst h1; exact hx
          · exact ih2.mp (by omega) y h1
        · intro h
          have := ih2.mpr (fun y hy => h y (by simp [hy]))
          omega
    · constructor
      · simp only [List.map_cons, List.sum_cons, if_neg hx, List.length_cons]
        omega
      · simp only [List.map_cons, List.sum_cons, if_neg hx, List.length_cons]
        constructor
        · intro h
          omega
        · intro h
          exact absurd (h x (by simp)) hx

-- ### Generic takeWhile/dropWhile helpers

theorem dropWhile_append_all {α : Type} (p : α → Bool) :
    ∀ (t r : List α), (∀ a ∈ t, p a = true) →
      (t ++ r).dropWhile p = r.dropWhile p := by
  intro t
  induction t with
  | nil => intro r _; rfl
  | cons x xs ih =>
    intro r h
    have hx : p x = true := h x (by simp)
    simp only [List.cons_append, List.dropWhile_cons, hx, if_pos]
    exact ih r (fun a ha => h a (by simp [ha]))

theorem takeWhile_append_all {α : Type} (p : α → Bool) :
    ∀ (t r : List α), (∀ a ∈ t, p a = true) →
      (t ++ r).takeWhile p = t ++ r.takeWhile p := by
  intro t
  induction t with
  | nil => intro r _; rfl
  | cons x xs ih =>
    intro r h
    have hx : p x = true := h x (by simp)
    simp only [List.cons_append, List.takeWhile_cons, hx, if_pos]
    rw [ih r (fun a ha => h a (by simp [ha]))]

-- ### Claim theorems: aggregation

/-- C1: the two-stage reduction is associative and commutative — for every
way of splitting a collection of run outcomes into groups (`gs`), reducing
each group from the all-zero identity and then combining the group results
gives the same `TestResults` as one full sequential reduction of the same
multiset of outcomes (`l`): field-wise equality of every player's
`total_points` and `total_wins`, and set equality of `failed_seeds`. -/
theorem reduce_assoc_comm (gs : List (List ExecutionResults))
    (l : List ExecutionResults) (hperm : gs.flatten.Perm l) :
    TRequiv (groupReduce gs) (reduceList l) := by
  constructor
  · intro i
    constructor
    · exact acc_group_eq (fun t => (t.player_results i).total_points)
        (fun a b => rfl) rfl gs l hperm
    · exact acc_group_eq (fun t => (t.player_results i).total_wins)
        (fun a b => rfl) rfl gs l hperm
  · intro s
    rw [fs_groupReduce, fs_reduceList]
    simp only [List.mem_flatten, List.mem_map]
    constructor
    · rintro ⟨t, ⟨o, ho, rfl⟩, hst⟩
      exact ⟨(mapStage o).failed_seeds,
        ⟨o, hperm.subset (List.mem_flatten.mpr ho), rfl⟩, hst⟩
    · rintro ⟨t, ⟨o, ho, rfl⟩, hst⟩
      exact ⟨(mapStage o).failed_seeds,
        ⟨o, List.mem_flatten.mp (hperm.symm.subset ho), rfl⟩, hst⟩

/-- Witness for C1 at a concrete grouping: one crash and one success,
grouped as two singleton groups versus reduced in the swapped order. -/
theorem reduce_assoc_comm_witness :
    TRequiv (groupReduce [[ExecutionResults.Crash 3], [ExecutionResults.Ok ![1, 2, 2, 0]]])
      (reduceList [ExecutionResults.Ok ![1, 2, 2, 0], ExecutionResults.Crash 3]) :=
  reduce_assoc_comm _ _
    (List.Perm.swap (ExecutionResults.Ok ![1, 2, 2, 0]) (ExecutionResults.Crash 3) [])

/-- C3: a `Success` fragment stores each player's score as `total_points`
and a win exactly when that score ties the maximum of the four; with
scores [10, 20, 20, 5] exactly players 2 and 3 (slots 1 and 2) win. -/
theorem mapStage_success_spec :
    (∀ (points : Fin 4 → Nat) (i : Fin 4),
      ((mapStage (.Ok points)).player_results i).total_points = points i ∧
      ((mapStage (.Ok points)).player_results i).total_wins =
        if points i = maxP points then 1 else 0) ∧
    (((mapStage (.Ok ![10, 20, 20, 5])).player_results 0).total_wins = 0 ∧
     ((mapStage (.Ok ![10, 20, 20, 5])).player_results 1).total_wins = 1 ∧
     ((mapStage (.Ok ![10, 20, 20, 5])).player_results 2).total_wins = 1 ∧
     ((mapStage (.Ok ![10, 20, 20, 5])).player_results 3).total_wins = 0) := by
  refine ⟨fun points i => ⟨rfl, rfl⟩, ?_, ?_, ?_, ?_⟩ <;> decide

/-- C4: a `Crash{seed}` fragment has all-zero player counters and
`failed_seeds = [seed]`; and when every seed of a duplicate-free seed list
contributes exactly one outcome (a crash for seed `s` carrying `s`), the
final `failed_seeds` counts every crashed seed exactly once and no other
seed, for any grouping and order of the reduction. -/
theorem crash_outcome_spec :
    (∀ seed : Nat,
      (∀ i, (mapStage (.Crash seed)).player_results i = ⟨0, 0⟩) ∧
      (mapStage (.Crash seed)).failed_seeds = [seed]) ∧
    (∀ (seeds : List Nat) (f : Nat → ExecutionResults)
        (gs : List (List ExecutionResults)),
      seeds.Nodup →
      (∀ x ∈ seeds, ∀ t, f x = .Crash t → t = x) →
      gs.flatten.Perm (seeds.map f) →
      ∀ s, List.count s (groupReduce gs).failed_seeds =
        if s ∈ seeds ∧ isCrash (f s) = true then 1 else 0) := by
  constructor
  · intro seed
    exact ⟨fun i => rfl, rfl⟩
  · intro seeds f gs hnd hcons hperm s
    rw [count_fs_groupReduce]
    have hs := (hperm.map (fun o => List.count s (mapStage o).failed_seeds)).sum_eq
    rw [hs, List.map_map]
    exact count_seed_sum s seeds f hnd hcons

/-- Witness for C4: seeds 5 and 6, where seed 5 crashes and seed 6
succeeds; the aggregate contains seed 5 exactly once. -/
theorem crash_outcome_spec_witness :
    List.count 5 (groupReduce
      [[ExecutionResults.Crash 5], [ExecutionResults.Ok ![3, 1, 1, 0]]]).failed_seeds = 1 := by
  have h := crash_outcome_spec.2 [5, 6]
    (fun s => if s = 5 then .Crash 5 else .Ok ![3, 1, 1, 0])
    [[ExecutionResults.Crash 5], [ExecutionResults.Ok ![3, 1, 1, 0]]]
    (by decide)
    (by
      intro x hx t ht
      fin_cases hx <;> simp_all)
    (by exact List.Perm.refl _)
    5
  rw [h]
  decide

/-- C10: when every seed of a duplicate-free seed list contributes exactly
one outcome, the aggregated `failed_seeds` has at most as many entries as
there are seeds — so the successful-game count `instances - |failed_seeds|`
(main.rs line 224) cannot underflow — and it is zero exactly when every
seed crashed. -/
theorem ok_games_no_underflow (seeds : List Nat) (f : Nat → ExecutionResults)
    (gs : List (List ExecutionResults)) (_hnd : seeds.Nodup)
    (hperm : gs.flatten.Perm (seeds.map f)) :
    (groupReduce gs).failed_seeds.length ≤ seeds.length ∧
    (seeds.length - (groupReduce gs).failed_seeds.length = 0 ↔
      ∀ s ∈ seeds, isCrash (f s) = true) := by
  have hlen : (groupReduce gs).failed_seeds.length =
      (seeds.map (fun x => if isCrash (f x) = true then 1 else 0)).sum := by
    rw [length_fs_groupReduce]
    have h1 := (hperm.map (fun o => (mapStage o).failed_seeds.length)).sum_eq
    rw [h1, List.map_map]
    apply congrArg List.sum
    apply List.map_congr_left
    intro x _
    exact fs_mapStage_length (f x)
  obtain ⟨hb1, hb2⟩ := sum_ite_bound seeds (fun x => isCrash (f x))
  constructor
  · rw [hlen]
    exact hb1
  · rw [hlen]
    constructor
    · intro h
      exact hb2.mp (Nat.le_of_sub_eq_zero h)
    · intro h
      exact Nat.sub_eq_zero_of_le (hb2.mpr h)

/-- Witness for C10: two seeds, both crashing; the failed-seed count is
bounded by the seed count. -/
theorem ok_games_no_underflow_witness :
    (groupReduce [[ExecutionResults.Crash 1, ExecutionResults.Crash 2]]).failed_seeds.length ≤
      ([1, 2] : List Nat).length :=
  (ok_games_no_underflow [1, 2] (fun s => .Crash s)
    [[ExecutionResults.Crash 1, ExecutionResults.Crash 2]]
    (by decide) (List.Perm.refl _)).1

-- ### Claim theorems: seed range

theorem seedRange_eq_none_iff (s n : Nat) :
    seedRange s n = none ↔ u32Max < s + (n - 1) := by
  unfold seedRange checkedAddU32
  by_cases h : s + (n - 1) ≤ u32Max
  · simp only [if_pos h]
    constructor
    · intro hc
      exact absurd hc (by simp)
    · intro hc
      omega
  · simp only [if_neg h]
    constructor
    · intro _
      omega
    · intro _
      trivial

theorem seedRange_eq_some_iff (s n lo hi : Nat) :
    seedRange s n = some (lo, hi) ↔
      (s + (n - 1) ≤ u32Max ∧ lo = s ∧ hi = s + (n - 1)) := by
  unfold seedRange checkedAddU32
  by_cases h : s + (n - 1) ≤ u32Max
  · simp only [if_pos h, Option.some.injEq, Prod.mk.injEq]
    constructor
    · rintro ⟨h1, h2⟩
      exact ⟨h, h1.symm, h2.symm⟩
    · rintro ⟨-, h1, h2⟩
      exact ⟨h1.symm, h2.symm⟩
  · simp only [if_neg h]
    constructor
    · intro hc
      exact absurd hc (by simp)
    · rintro ⟨h1, -, -⟩
      exact absurd h1 h

/-- C2: seed-range construction fails, with `SeedRangeOutOfBounds` rather
than wrapping, exactly when `seed + instances - 1` exceeds `u32::MAX`;
on success the work set is the inclusive range `[seed, seed+instances-1]`,
holding exactly `instances` distinct seeds whose least element is `seed`. -/
theorem seedRange_spec (seed instances : Nat) (hpos : 1 ≤ instances) :
    (seedRange seed instances = none ↔ u32Max < seed + instances - 1) ∧
    (∀ lo hi, seedRange seed instances = some (lo, hi) →
      lo = seed ∧ hi = seed + instances - 1 ∧
      (Finset.Icc lo hi).card = instances ∧
      (∀ x, x ∈ Finset.Icc lo hi ↔ seed ≤ x ∧ x ≤ seed + instances - 1) ∧
      seed ∈ Finset.Icc lo hi) := by
  constructor
  · rw [seedRange_eq_none_iff]
    omega
  · intro lo hi hsome
    rw [seedRange_eq_some_iff] at hsome
    obtain ⟨hb, h1, h2⟩ := hsome
    subst h1
    subst h2
    refine ⟨rfl, by omega, ?_, ?_, ?_⟩
    · rw [Nat.card_Icc]
      omega
    · intro x
      rw [Finset.mem_Icc]
      omega
    · rw [Finset.mem_Icc]
      omega

/-- Witness for C2: starting six seeds below the top of the `u32` range
succeeds and yields exactly six seeds ending at `u32::MAX`. -/
theorem seedRange_spec_witness :
    seedRange 4294967290 6 = some (4294967290, 4294967295) ∧
    (Finset.Icc (4294967290 : Nat) 4294967295).card = 6 := by
  have h := (seedRange_spec 4294967290 6 (by decide)).2 4294967290 4294967295 (by decide)
  exact ⟨by decide, h.2.2.1⟩

-- ### Claim theorems: player names

/-- C8 counterexample: the two-byte, valid-UTF-8 name [97, 0] is accepted
(length 2 ≤ 12) but reconstructing the display strips its own trailing
NUL byte, so the round trip yields [97], not the original name. -/
theorem playerName_roundTrip_cex :
    (playerNameTryFrom [97, 0]).map playerNameAsString = some [97] ∧
    ([97] : List Nat) ≠ [97, 0] := by
  decide

/-- C8 (amended): construction fails exactly for names longer than 12
bytes; shorter names are stored left-aligned and zero-padded; the display
reconstructs the original name with trailing zero bytes stripped, hence
round-trips (modulo lossy non-UTF-8 decoding) exactly for names that do
not end in a zero byte. -/
theorem playerName_spec (name : List Nat) :
    (playerNameTryFrom name = none ↔ 12 < name.length) ∧
    (name.length ≤ 12 →
      playerNameTryFrom name = some (name ++ List.replicate (12 - name.length) 0)) ∧
    (name.length ≤ 12 → trimTrailingZeros name = name →
      playerNameAsString (name ++ List.replicate (12 - name.length) 0) = name) := by
  refine ⟨?_, ?_, ?_⟩
  · unfold playerNameTryFrom
    by_cases h : name.length > 12
    · simp only [if_pos h]
      constructor
      · intro _
        omega
      · intro _
        trivial
    · simp only [if_neg h]
      constructor
      · intro hc
        exact absurd hc (by simp)
      · intro hc
        omega
  · intro h
    unfold playerNameTryFrom
    rw [if_neg (by omega)]
  · intro h htz
    unfold playerNameAsString trimTrailingZeros
    rw [List.reverse_append, List.reverse_replicate]
    rw [dropWhile_append_all _ _ _ (fun a ha => by
      have := List.eq_of_mem_replicate ha
      simp [this])]
    unfold trimTrailingZeros at htz
    exact htz

/-- Witness for C8 (amended) at the name "ab" = [97, 98]: stored
zero-padded and displayed back unchanged. -/
theorem playerName_spec_witness :
    playerNameTryFrom [97, 98] = some [97, 98, 0, 0, 0, 0, 0, 0, 0, 0, 0, 0] ∧
    playerNameAsString [97, 98, 0, 0, 0, 0, 0, 0, 0, 0, 0, 0] = [97, 98] := by
  refine ⟨?_, ?_⟩
  · exact (playerName_spec [97, 98]).2.1 (by decide)
  · exact (playerName_spec [97, 98]).2.2 (by decide) (by decide)

-- ### Score parser: the regex r"player \S* got score (\d*)" (main.rs line 137)

/-- Unicode white-space characters, the class behind the default `\s` of
the regex engine used at main.rs line 137; `\S` is its complement. -/
def isWsChar (c : Char) : Bool :=
  c.toNat = 0x20 || c.toNat = 0x9 || c.toNat = 0xA || c.toNat = 0xB ||
  c.toNat = 0xC || c.toNat = 0xD || c.toNat = 0x85 || c.toNat = 0xA0 ||
  c.toNat = 0x1680 || (0x2000 ≤ c.toNat && c.toNat ≤ 0x200A) ||
  c.toNat = 0x2028 || c.toNat = 0x2029 || c.toNat = 0x202F ||
  c.toNat = 0x205F || c.toNat = 0x3000

/-- The code-point ranges of the Unicode general category `Nd`
(decimal number, Unicode 15.0). -/
def ndRanges : List (Nat × Nat) :=
  [(0x30, 0x39), (0x660, 0x669), (0x6F0, 0x6F9), (0x7C0, 0x7C9),
   (0x966, 0x96F), (0x9E6, 0x9EF), (0xA66, 0xA6F), (0xAE6, 0xAEF),
   (0xB66, 0xB6F), (0xBE6, 0xBEF), (0xC66, 0xC6F), (0xCE6, 0xCEF),
   (0xD66, 0xD6F), (0xDE6, 0xDEF), (0xE50, 0xE59), (0xED0, 0xED9),
   (0xF20, 0xF29), (0x1040, 0x1049), (0x1090, 0x1099), (0x17E0, 0x17E9),
   (0x1810, 0x1819), (0x1946, 0x194F), (0x19D0, 0x19D9), (0x1A80, 0x1A89),
   (0x1A90, 0x1A99), (0x1B50, 0x1B59), (0x1BB0, 0x1BB9), (0x1C40, 0x1C49),
   (0x1C50, 0x1C59), (0xA620, 0xA629), (0xA8D0, 0xA8D9), (0xA900, 0xA909),
   (0xA9D0, 0xA9D9), (0xA9F0, 0xA9F9), (0xAA50, 0xAA59), (0xABF0, 0xABF9),
   (0xFF10, 0xFF19), (0x104A0, 0x104A9), (0x10D30, 0x10D39),
   (0x11066, 0x1106F), (0x110F0, 0x110F9), (0x11136, 0x1113F),
   (0x111D0, 0x111D9), (0x112F0, 0x112F9), (0x11450, 0x11459),
   (0x114D0, 0x114D9), (0x11650, 0x11659), (0x116C0, 0x116C9),
   (0x11730, 0x11739), (0x118E0, 0x118E9), (0x11950, 0x11959),
   (0x11C50, 0x11C59), (0x11D50, 0x11D59), (0x11DA0, 0x11DA9),
   (0x11F50, 0x11F59), (0x16A60, 0x16A69), (0x16AC0, 0x16AC9),
   (0x16B50, 0x16B59), (0x1D7CE, 0x1D7FF), (0x1E140, 0x1E149),
   (0x1E2F0, 0x1E2F9), (0x1E4F0, 0x1E4F9), (0x1E950, 0x1E959),
   (0x1FBF0, 0x1FBF9)]

/-- The `\d` class of the score regex: the `regex` crate's `\d` is
Unicode-aware by default and matches every `\p{Nd}` decimal digit, not
just ASCII `0-9`. -/
def isDigitChar (c : Char) : Bool :=
  ndRanges.any (fun r => r.1 ≤ c.toNat && c.toNat ≤ r.2)

/-- The literal "player " opening the score-line pattern. -/
def litPlayer : List Char := ['p', 'l', 'a', 'y', 'e', 'r', ' ']

/-- The literal " got score " between the token and the captured digits. -/
def litGotScore : List Char := [' ', 'g', 'o', 't', ' ', 's', 'c', 'o', 'r', 'e', ' ']

/-- One attempt of the pattern at the start of `s`: the literal
"player ", then a maximal (greedy) run of non-white-space for `\S*` —
the only feasible backtracking split, since the following literal starts
with a space — then " got score ", then the greedy digit capture `(\d*)`.
Returns the capture and the remainder after the match. -/
def matchAt (s : List Char) : Option (List Char × List Char) :=
  if litPlayer.isPrefixOf s then
    if litGotScore.isPrefixOf
        ((s.drop litPlayer.length).dropWhile (fun c => !isWsChar c)) then
      some (((((s.drop litPlayer.length).dropWhile (fun c => !isWsChar c)).drop
                litGotScore.length).takeWhile isDigitChar),
            ((((s.drop litPlayer.length).dropWhile (fun c => !isWsChar c)).drop
                litGotScore.length).dropWhile isDigitChar))
    else none
  else none

theorem isPrefixOf_length_le {l s : List Char} (h : l.isPrefixOf s = true) :
    l.length ≤ s.length := by
  induction l generalizing s with
  | nil => simp
  | cons x xs ih =>
    cases s with
    | nil => simp [List.isPrefixOf] at h
    | cons y ys =>
      simp only [List.isPrefixOf, Bool.and_eq_true] at h
      have := ih h.2
      simp only [List.length_cons]
      omega

theorem matchAt_rest_length {s cap rest : List Char}
    (h : matchAt s = some (cap, rest)) : rest.length < s.length := by
  unfold matchAt at h
  by_cases h1 : litPlayer.isPrefixOf s = true
  · rw [if_pos h1] at h
    by_cases h2 : litGotScore.isPrefixOf
        ((s.drop litPlayer.length).dropWhile (fun c => !isWsChar c)) = true
    · rw [if_pos h2] at h
      have hrest : rest =
          (((s.drop litPlayer.length).dropWhile (fun c => !isWsChar c)).drop
            litGotScore.length).dropWhile isDigitChar := by
        have := (Option.some.injEq _ _).mp h
        exact (congrArg Prod.snd this).symm
      have hs7 : litPlayer.length ≤ s.length := isPrefixOf_length_le h1
      have hd1 : (s.drop litPlayer.length).length = s.length - litPlayer.length :=
        List.length_drop _ _
      have hd2 : ((s.drop litPlayer.length).dropWhile (fun c => !isWsChar c)).length ≤
          (s.drop litPlayer.length).length :=
        (List.dropWhile_sublist (fun c => !isWsChar c)).length_le
      have h11 : litGotScore.length ≤
          ((s.drop litPlayer.length).dropWhile (fun c => !isWsChar c)).length :=
        isPrefixOf_length_le h2
      have hd3 : ((((s.drop litPlayer.length).dropWhile (fun c => !isWsChar c)).drop
            litGotScore.length)).length =
          ((s.drop litPlayer.length).dropWhile (fun c => !isWsChar c)).length -
            litGotScore.length := List.length_drop _ _
      have hd4 : rest.length ≤
          ((((s.drop litPlayer.length).dropWhile (fun c => !isWsChar c)).drop
            litGotScore.length)).length := by
        rw [hrest]
        exact (List.dropWhile_sublist isDigitChar).length_le
      have hlit1 : litPlayer.length = 7 := rfl
      have hlit2 : litGotScore.length = 11 := rfl
      omega
    · rw [if_neg h2] at h
      exact absurd h (by simp)
  · rw [if_neg h1] at h
    exact absurd h (by simp)

/-- Fuel-indexed scan of `Regex::captures_iter` (main.rs lines 180-184):
try the pattern at every position from left to right; after a match,
continue at the first character past it (matches cannot overlap).  The
fuel only serves termination; `s.length` is always enough. -/
def findCapturesFuel : Nat → List Char → List (List Char)
  | 0, _ => []
  | _ + 1, [] => []
  | fuel + 1, c :: cs =>
    match matchAt (c :: cs) with
    | some (cap, rest) => cap :: findCapturesFuel fuel rest
    | none => findCapturesFuel fuel cs

/-- All group-1 captures of the score regex over a text, in order of
appearance, as produced by `captures_iter` at main.rs lines 180-184. -/
def findCaptures (s : List Char) : List (List Char) :=
  findCapturesFuel s.length s

theorem findCapturesFuel_eq (fuel : Nat) :
    ∀ s : List Char, s.length ≤ fuel →
      findCapturesFuel fuel s = findCaptures s := by
  induction fuel using Nat.strong_induction_on with
  | _ fuel ih =>
    intro s hs
    match fuel, s with
    | 0, s =>
      have : s = [] := List.length_eq_zero.mp (Nat.le_zero.mp hs)
      subst this
      rfl
    | g + 1, [] => rfl
    | g + 1, c :: cs =>
      show findCapturesFuel (g + 1) (c :: cs) =
        findCapturesFuel (c :: cs).length (c :: cs)
      have hlcs : (c :: cs).length = cs.length + 1 := rfl
      rw [hlcs]
      show (match matchAt (c :: cs) with
        | some (cap, rest) => cap :: findCapturesFuel g rest
        | none => findCapturesFuel g cs) =
        (match matchAt (c :: cs) with
        | some (cap, rest) => cap :: findCapturesFuel cs.length rest
        | none => findCapturesFuel cs.length cs)
      cases hm : matchAt (c :: cs) with
      | some pr =>
        obtain ⟨cap, rest⟩ := pr
        have hr : rest.length < (c :: cs).length := matchAt_rest_length hm
        have hrg : rest.length ≤ g := by
          simp only [List.length_cons] at hr
          omega
        have hrc : rest.length ≤ cs.length := by
          simp only [List.length_cons] at hr
          omega
        have e1 : findCapturesFuel g rest = findCaptures rest :=
          ih g (by omega) rest hrg
        have e2 : findCapturesFuel cs.length rest = findCaptures rest :=
          ih cs.length (by omega) rest hrc
        simp only [e1, e2]
      | none =>
        have hg : cs.length ≤ g := by
          simp only [List.length_cons] at hs
          omega
        have e1 : findCapturesFuel g cs = findCaptures cs :=
          ih g (by omega) cs hg
        have e2 : findCapturesFuel cs.length cs = findCaptures cs :=
          ih cs.length (by omega) cs (Nat.le_refl _)
        simp only [e1, e2]

theorem findCaptures_nil : findCaptures [] = [] := rfl

theorem findCaptures_cons_pos {c : Char} {cs cap rest : List Char}
    (h : matchAt (c :: cs) = some (cap, rest)) :
    findCaptures (c :: cs) = cap :: findCaptures rest := by
  have hr : rest.length < (c :: cs).length := matchAt_rest_length h
  show findCapturesFuel (c :: cs).length (c :: cs) = _
  have hlcs : (c :: cs).length = cs.length + 1 := rfl
  rw [hlcs]
  show (match matchAt (c :: cs) with
    | some (cap, rest) => cap :: findCapturesFuel cs.length rest
    | none => findCapturesFuel cs.length cs) = cap :: findCaptures rest
  rw [h]
  show cap :: findCapturesFuel cs.length rest = cap :: findCaptures rest
  have : findCapturesFuel cs.length rest = findCaptures rest :=
    findCapturesFuel_eq cs.length rest (by
      simp only [List.length_cons] at hr
      omega)
  rw [this]

theorem findCaptures_cons_neg {c : Char} {cs : List Char}
    (h : matchAt (c :: cs) = none) :
    findCaptures (c :: cs) = findCaptures cs := by
  show findCapturesFuel (c :: cs).length (c :: cs) = _
  have hlcs : (c :: cs).length = cs.length + 1 := rfl
  rw [hlcs]
  show (match matchAt (c :: cs) with
    | some (cap, rest) => cap :: findCapturesFuel cs.length rest
    | none => findCapturesFuel cs.length cs) = findCaptures cs
  rw [h]
  show findCapturesFuel cs.length cs = findCaptures cs
  exact findCapturesFuel_eq cs.length cs (Nat.le_refl _)

theorem isPrefixOf_append_self (l t : List Char) : l.isPrefixOf (l ++ t) = true := by
  induction l with
  | nil => simp [List.isPrefixOf]
  | cons x xs ih => simp [List.isPrefixOf, ih]

theorem dropWhile_stop {α : Type} (p : α → Bool) (x : α) (xs : List α)
    (hx : p x = false) : (x :: xs).dropWhile p = x :: xs := by
  rw [List.dropWhile_cons, hx]
  simp

theorem takeWhile_stop {α : Type} (p : α → Bool) (x : α) (xs : List α)
    (hx : p x = false) : (x :: xs).takeWhile p = [] := by
  rw [List.takeWhile_cons, hx]
  simp

/-- The pattern matches at the head of a well-formed score line
`"player " ++ tok ++ " got score " ++ ds ++ "\n" ++ rest`, capturing
exactly `ds` independently of the token, and the scan resumes right
after the digits. -/
theorem matchAt_render (tok ds rest : List Char)
    (htok : ∀ c ∈ tok, isWsChar c = false)
    (hds : ∀ c ∈ ds, isDigitChar c = true) :
    matchAt (litPlayer ++ (tok ++ (litGotScore ++ (ds ++ ('\n' :: rest))))) =
      some (ds, '\n' :: rest) := by
  have htok2 : ∀ c ∈ tok, (fun c => !isWsChar c) c = true := by
    intro c hc
    simp [htok c hc]
  have h1 : litPlayer.isPrefixOf
      (litPlayer ++ (tok ++ (litGotScore ++ (ds ++ ('\n' :: rest))))) = true :=
    isPrefixOf_append_self _ _
  have hdrop1 : (litPlayer ++ (tok ++ (litGotScore ++ (ds ++ ('\n' :: rest))))).drop
      litPlayer.length = tok ++ (litGotScore ++ (ds ++ ('\n' :: rest))) :=
    List.drop_left _ _
  have hdw : (tok ++ (litGotScore ++ (ds ++ ('\n' :: rest)))).dropWhile
      (fun c => !isWsChar c) = litGotScore ++ (ds ++ ('\n' :: rest)) := by
    rw [dropWhile_append_all _ _ _ htok2]
    exact dropWhile_stop (fun c => !isWsChar c) ' '
      (['g', 'o', 't', ' ', 's', 'c', 'o', 'r', 'e', ' '] ++ (ds ++ ('\n' :: rest)))
      (by decide)
  have h2 : litGotScore.isPrefixOf (litGotScore ++ (ds ++ ('\n' :: rest))) = true :=
    isPrefixOf_append_self _ _
  have hdrop2 : (litGotScore ++ (ds ++ ('\n' :: rest))).drop litGotScore.length =
      ds ++ ('\n' :: rest) := List.drop_left _ _
  have htw : (ds ++ ('\n' :: rest)).takeWhile isDigitChar = ds := by
    rw [takeWhile_append_all _ _ _ hds]
    rw [takeWhile_stop isDigitChar '\n' rest (by decide), List.append_nil]
  have hdw2 : (ds ++ ('\n' :: rest)).dropWhile isDigitChar = '\n' :: rest := by
    rw [dropWhile_append_all _ _ _ hds]
    exact dropWhile_stop isDigitChar '\n' rest (by decide)
  unfold matchAt
  rw [if_pos h1, hdrop1, hdw, if_pos h2, hdrop2, htw, hdw2]

theorem matchAt_newline (cs : List Char) : matchAt ('\n' :: cs) = none := by
  unfold matchAt
  have h : litPlayer.isPrefixOf ('\n' :: cs) = false := by
    simp [litPlayer, List.isPrefixOf]
  rw [h]
  simp

/-- A synthetic diagnostic text: one line per row, using that row's token
and digit string in the fixed score-line shape. -/
def renderRows (rows : List (List Char × List Char)) : List Char :=
  (rows.map (fun r => litPlayer ++ r.1 ++ litGotScore ++ r.2 ++ ['\n'])).flatten

/-- C6: on a text consisting of score lines, the parser captures exactly
the digit strings, in the order the lines appear in the text, regardless
of the content of each line's token (any run of non-white-space, including
digits, repeated words, or the empty run) — the output position alone
determines the slot an integer fills. -/
theorem scoreParser_positional (rows : List (List Char × List Char))
    (hrows : ∀ r ∈ rows,
      (∀ c ∈ r.1, isWsChar c = false) ∧ (∀ c ∈ r.2, isDigitChar c = true)) :
    findCaptures (renderRows rows) = rows.map Prod.snd := by
  induction rows with
  | nil => rfl
  | cons row rows ih =>
    obtain ⟨htok, hds⟩ := hrows row (by simp)
    have hrest : ∀ r ∈ rows,
        (∀ c ∈ r.1, isWsChar c = false) ∧ (∀ c ∈ r.2, isDigitChar c = true) :=
      fun r hr => hrows r (by simp [hr])
    have hshape : renderRows (row :: rows) =
        litPlayer ++ (row.1 ++ (litGotScore ++ (row.2 ++ ('\n' :: renderRows rows)))) := by
      show (litPlayer ++ row.1 ++ litGotScore ++ row.2 ++ ['\n']) ++ renderRows rows = _
      simp [List.append_assoc]
    rw [hshape]
    have hm := matchAt_render row.1 row.2 (renderRows rows) htok hds
    have hcons : litPlayer ++ (row.1 ++ (litGotScore ++ (row.2 ++ ('\n' :: renderRows rows)))) =
        'p' :: (['l', 'a', 'y', 'e', 'r', ' '] ++
          (row.1 ++ (litGotScore ++ (row.2 ++ ('\n' :: renderRows rows))))) := rfl
    rw [hcons] at hm ⊢
    rw [findCaptures_cons_pos hm]
    rw [findCaptures_cons_neg (matchAt_newline (renderRows rows))]
    rw [ih hrest]
    rfl

-- ### Parsing captures into u32 scores (main.rs lines 178-188)

/-- Value of a digit string, most significant digit first. -/
def digitsToNat (ds : List Char) : Nat :=
  ds.foldl (fun a c => a * 10 + (c.toNat - '0'.toNat)) 0

/-- ASCII decimal digits, the only digits `u32::from_str` accepts. -/
def isAsciiDigit (c : Char) : Bool :=
  (0x30 ≤ c.toNat) && (c.toNat ≤ 0x39)

/-- `str::parse::<u32>()` on a capture of the `(\d*)` group: Rust's `u32`
parser fails on the empty string, on any character that is not an ASCII
digit — in particular on the non-ASCII `\p{Nd}` digits that `\d` also
captures — and on values exceeding `u32::MAX`; the source unwraps this
result (main.rs line 182). -/
def parseU32 (ds : List Char) : Option Nat :=
  if ds = [] then none
  else if ds.all isAsciiDigit then
    if digitsToNat ds ≤ u32Max then some (digitsToNat ds) else none
  else none

/-- Parse every capture in order; `none` as soon as one capture fails to
parse, modelling the panic of the `unwrap` at main.rs line 182. -/
def parseAll : List (List Char) → Option (List Nat)
  | [] => some []
  | c :: cs =>
    match parseU32 c, parseAll cs with
    | some v, some vs => some (v :: vs)
    | _, _ => none

/-- The score-extraction loop of main.rs lines 178-186: a zeroed 4-slot
array receives the parsed captures at indices 0, 1, 2, ….  `none` models
a panic: either an `unwrap` failure on parsing or the out-of-bounds write
`ret[i]` that a fifth match would reach. -/
def extractScores (text : List Char) : Option (Fin 4 → Nat) :=
  match parseAll (findCaptures text) with
  | none => none
  | some vals =>
    if vals.length ≤ 4 then some (fun i => vals.getD i.val 0) else none

/-- One run's outcome as a function of the child's exit status and its
captured diagnostic text (main.rs lines 174-188): a failing exit is
`Crash{seed}` at once; a clean exit parses the text. `none` models a
panic during parsing. -/
def runOutcome (seed : Nat) (exitSuccess : Bool) (text : List Char) :
    Option ExecutionResults :=
  if !exitSuccess then some (.Crash seed)
  else (extractScores text).map ExecutionResults.Ok

theorem parseAll_length : ∀ {l : List (List Char)} {v : List Nat},
    parseAll l = some v → v.length = l.length := by
  intro l
  induction l with
  | nil =>
    intro v h
    simp only [parseAll, Option.some.injEq] at h
    rw [← h]
    rfl
  | cons c cs ih =>
    intro v h
    unfold parseAll at h
    cases hp : parseU32 c with
    | none =>
      rw [hp] at h
      simp at h
    | some v1 =>
      cases hq : parseAll cs with
      | none =>
        rw [hp, hq] at h
        simp at h
      | some vs =>
        rw [hp, hq] at h
        simp only [Option.some.injEq] at h
        rw [← h]
        simp [ih hq]

theorem parseAll_total : ∀ (l : List (List Char)),
    (∀ c ∈ l, parseU32 c ≠ none) → ∃ v, parseAll l = some v := by
  intro l
  induction l with
  | nil => exact fun _ => ⟨[], rfl⟩
  | cons c cs ih =>
    intro hp
    cases hc : parseU32 c with
    | none => exact absurd hc (hp c (by simp))
    | some v1 =>
      obtain ⟨vs, hvs⟩ := ih (fun d hd => hp d (by simp [hd]))
      refine ⟨v1 :: vs, ?_⟩
      unfold parseAll
      rw [hc, hvs]

theorem getD_out_of_range {α : Type} (l : List α) (d : α) (n : Nat)
    (h : l.length ≤ n) : l.getD n d = d := by
  rw [List.getD_eq_getElem?_getD, List.getElem?_eq_none h]
  rfl

-- ### Claim theorems: run outcomes and parsing

/-- C5: a run whose child exits with failure is reported as `Crash{seed}`
without parsing the diagnostic text — the outcome is the same for any two
diagnostic texts. -/
theorem crash_ignores_diagnostics (seed : Nat) (t1 t2 : List Char) :
    runOutcome seed false t1 = some (.Crash seed) ∧
    runOutcome seed false t1 = runOutcome seed false t2 :=
  ⟨rfl, rfl⟩

/-- Witness for C6 at two concrete rows with unequal tokens: the captures
are the digit strings in textual order. -/
theorem scoreParser_positional_witness :
    findCaptures (renderRows [(['a'], ['1', '0']), (['b', 'b'], ['7'])]) =
      [['1', '0'], ['7']] :=
  scoreParser_positional _ (by decide)

/-- C7 counterexample: the diagnostic text
"player a got score 4294967296" contains one (< 4) line matching the
score pattern, yet a cleanly exiting run does not produce a `Success`
outcome — the capture exceeds `u32::MAX`, so the `unwrap` of
`str::parse::<u32>` at main.rs line 182 panics (modelled `none`). -/
theorem partial_scores_cex :
    (findCaptures ("player a got score 4294967296".toList)).length = 1 ∧
    runOutcome 0 true ("player a got score 4294967296".toList) = none := by
  constructor
  · decide
  · decide

/-- C7 (amended): a cleanly exiting run whose text has fewer than four
matching score lines, each of whose numeric captures parses as a `u32`,
yields `Success` with the parsed scores placed in order from slot 0 and
every unfilled slot equal to zero. -/
theorem partial_scores_fill (seed : Nat) (text : List Char) (vals : List Nat)
    (hparse : parseAll (findCaptures text) = some vals)
    (hlen : (findCaptures text).length < 4) :
    runOutcome seed true text = some (.Ok (fun i => vals.getD i.val 0)) ∧
    (∀ i : Fin 4, vals.length ≤ i.val → vals.getD i.val 0 = 0) := by
  have hvlen : vals.length = (findCaptures text).length := parseAll_length hparse
  constructor
  · show (extractScores text).map ExecutionResults.Ok = _
    unfold extractScores
    rw [hparse]
    have h4 : vals.length ≤ 4 := by omega
    show Option.map ExecutionResults.Ok
      (if vals.length ≤ 4 then some fun i => vals.getD i.val 0 else none) = _
    rw [if_pos h4]
    rfl
  · intro i hi
    exact getD_out_of_range _ _ _ hi

/-- Witness for C7 (amended): two well-formed score lines fill slots 0
and 1; slots 2 and 3 stay zero. -/
theorem partial_scores_fill_witness :
    runOutcome 0 true ("player a got score 3\nplayer b got score 5\n".toList) =
      some (.Ok (fun i => ([3, 5] : List Nat).getD i.val 0)) :=
  (partial_scores_fill 0 _ [3, 5] (by decide) (by decide)).1

/-- C9 counterexample: on "player a got score x" the `(\d*)` group
captures the empty string, which `str::parse::<u32>` rejects, so the
`unwrap` at main.rs line 182 panics (modelled `none`) — extraction is not
total. -/
theorem parser_totality_cex :
    findCaptures ("player a got score x".toList) = [[]] ∧
    parseU32 [] = none ∧
    extractScores ("player a got score x".toList) = none := by
  refine ⟨by decide, rfl, by decide⟩

/-- C9 (amended): score extraction succeeds (no panic) for every text
whose captures all parse as `u32` — nonempty digit strings with values
at most `u32::MAX` — and which has at most four matches, so every write
stays within the 4-slot array. -/
theorem parser_totality_guarded (text : List Char)
    (hp : ∀ c ∈ findCaptures text, parseU32 c ≠ none)
    (hlen : (findCaptures text).length ≤ 4) :
    ∃ pts, extractScores text = some pts := by
  obtain ⟨vals, hv⟩ := parseAll_total (findCaptures text) hp
  refine ⟨fun i => vals.getD i.val 0, ?_⟩
  unfold extractScores
  rw [hv]
  have h4 : vals.length ≤ 4 := by
    rw [parseAll_length hv]
    exact hlen
  show (if vals.length ≤ 4 then some fun i : Fin 4 => vals.getD i.val 0 else none) = _
  rw [if_pos h4]

/-- Witness for C9 (amended): a single valid score line extracts
successfully. -/
theorem parser_totality_guarded_witness :
    ∃ pts, extractScores ("player a got score 7\n".toList) = some pts :=
  parser_totality_guarded _ (by decide) (by decide)

/-- Fidelity check for the Unicode-aware `\d`: on
"player a got score 5٣" (U+0663 is a `\p{Nd}` digit) the capture is the
two-character string "5٣", exactly as `Regex::captures_iter` produces it;
that capture is rejected by `str::parse::<u32>`, so the extraction
panics (modelled `none`) just as the unwrap at main.rs line 182 does. -/
theorem findCaptures_unicode_digit :
    findCaptures ("player a got score 5٣".toList) = [['5', '٣']] ∧
    parseU32 ['5', '٣'] = none ∧
    extractScores ("player a got score 5٣".toList) = none := by
  refine ⟨by decide, by decide, by decide⟩
